import Mathlib

/-!
Shallow embedding of `src/main.rs` (N64 memory-map address classifier and
trace-line annotator) together with proofs about its classification tables,
resolution algorithm, string formatting and trace-line rewriting.

Machine integers (`u32`, `u64`) are modelled as `Nat` with explicit bounds
and `% 2^32` / `&&&` masks where the Rust code truncates.
-/

namespace N64

/-- Embedding of the Rust type alias
`type Region = (u32, u32, &'static str, &'static str)`:
start address, end address (inclusive), short name, long name. -/
structure Region where
  start : Nat
  stop : Nat
  short : String
  long : String
deriving DecidableEq, Repr

/-- Embedding of the Rust `static SEGMENTS: &[Region]` table. -/
def SEGMENTS : List Region := [
  ⟨0x00000000, 0x7FFFFFFF, "U", "KUSEG"⟩,
  ⟨0x80000000, 0x9FFFFFFF, "0", "KSEG0"⟩,
  ⟨0xA0000000, 0xBFFFFFFF, "1", "KSEG1"⟩,
  ⟨0xC0000000, 0xDFFFFFFF, "S", "KSSEG"⟩,
  ⟨0xE0000000, 0xFFFFFFFF, "3", "KSEG3"⟩]

/-- Embedding of the Rust `static REGIONS: &[Region]` table. -/
def REGIONS : List Region := [
  ⟨0x00000000, 0x03FFFFFF, "R", "RDRAM"⟩,
  ⟨0x04000000, 0x049FFFFF, "G", "RCP"⟩,
  ⟨0x05000000, 0x1FBFFFFF, "P", "PI 1/2"⟩,
  ⟨0x1FC00000, 0x1FCFFFFF, "S", "SI"⟩,
  ⟨0x1FD00000, 0x7FFFFFFF, "B", "PI 2/2"⟩,
  ⟨0x80000000, 0xFFFFFFFF, "U", "Unmapped"⟩]

/-- Embedding of the Rust `static SUBREGIONS: &[Region]` table. -/
def SUBREGIONS : List Region := [
  ⟨0x00000000, 0x03EFFFFF, "RDRM", "RDRAM memory-space"⟩,
  ⟨0x03F00000, 0x03F7FFFF, "RDRR", "RDRAM registers"⟩,
  ⟨0x03F80000, 0x03FFFFFF, "RDRB", "RDRAM broadcast registers"⟩,
  ⟨0x04000000, 0x04000FFF, "RSPD", "RSP Data Memory"⟩,
  ⟨0x04001000, 0x04001FFF, "RSPI", "RSP Instruction Memory"⟩,
  ⟨0x04002000, 0x0403FFFF, "RSPM", "RSP DMEM/IMEM Mirrors"⟩,
  ⟨0x04040000, 0x040BFFFF, "RSPR", "RSP Registers"⟩,
  ⟨0x040C0000, 0x040FFFFF, "RCPU", "Unmapped/fatal"⟩,
  ⟨0x04100000, 0x041FFFFF, "RDPC", "RDP Command Registers"⟩,
  ⟨0x04200000, 0x042FFFFF, "RDPS", "RDP Span Registers"⟩,
  ⟨0x04300000, 0x043FFFFF, "InMI", "MIPS Interface"⟩,
  ⟨0x04400000, 0x044FFFFF, "InVI", "Video Interface"⟩,
  ⟨0x04500000, 0x045FFFFF, "InAI", "Audio Interface"⟩,
  ⟨0x04600000, 0x046FFFFF, "InPI", "Peripheral Interface"⟩,
  ⟨0x04700000, 0x047FFFFF, "InRI", "RDRAM Interface"⟩,
  ⟨0x04800000, 0x048FFFFF, "InSI", "Serial Interface"⟩,
  ⟨0x04900000, 0x04FFFFFF, "RCPu", "Unmapped/fatal"⟩,
  ⟨0x05000000, 0x05FFFFFF, "NDDR", "N64DD Registers"⟩,
  ⟨0x06000000, 0x07FFFFFF, "NDDI", "N64DD IPL ROM"⟩,
  ⟨0x08000000, 0x0FFFFFFF, "CSRM", "Cartridge SRAM"⟩,
  ⟨0x10000000, 0x1FBFFFFF, "CROM", "Cartridge ROM"⟩,
  ⟨0x1FC00000, 0x1FC007BF, "PIFR", "PIF ROM"⟩,
  ⟨0x1FC007C0, 0x1FC007FF, "PIFR", "PIF RAM"⟩,
  ⟨0x1FC00800, 0x1FCFFFFF, "RSVD", "Reserved"⟩,
  ⟨0x1FD00000, 0x1FFFFFFF, "UPB1", "Unused / PI BUS Domain 1"⟩,
  ⟨0x20000000, 0x7FFFFFFF, "UCPA", "Unused / PI BUS Domain 1 [CPU Accessible]"⟩,
  ⟨0x80000000, 0xFFFFFFFF, "UNMP", "Unmapped/fatal"⟩]

/-- Embedding of the Rust `struct AddressLocation`. The `Option` pairs are
(short name, long name), exactly as produced by the Rust `.map` calls. -/
structure AddressLocation where
  virtual_address : Nat
  physical_address : Nat
  segment : Option (String × String)
  region : Option (String × String)
  subregions : List (String × String)
deriving DecidableEq, Repr

/-- The range-membership test `reg.0 <= a && a <= reg.1` used by
`get_segment_region_subregion` for all three tables. -/
def containsAddr (r : Region) (a : Nat) : Bool :=
  decide (r.start ≤ a ∧ a ≤ r.stop)

/-- Embedding of the Rust `fn get_segment_region_subregion(address: u32)`.
`address & 0x1FFF_FFFF` becomes `&&&` on `Nat`; `find` becomes `List.find?`
and `filter`/`collect` becomes `List.filter` followed by `List.map`. -/
def get_segment_region_subregion (address : Nat) : AddressLocation :=
  let address_raw : Nat := address &&& 0x1FFFFFFF
  let segment : Option (String × String) :=
    (SEGMENTS.find? (fun seg => containsAddr seg address)).map
      (fun seg => (seg.short, seg.long))
  let region : Option (String × String) :=
    (REGIONS.find? (fun reg => containsAddr reg address_raw)).map
      (fun reg => (reg.short, reg.long))
  let subregions : List (String × String) :=
    (SUBREGIONS.filter (fun reg => containsAddr reg address_raw)).map
      (fun reg => (reg.short, reg.long))
  { virtual_address := address
    physical_address := address_raw
    segment := segment
    region := region
    subregions := subregions }

/-- Embedding of the Rust `fn address_location_to_string`:
`format!("{}{}.{}", seg.unwrap_or(("?", "?")).0, reg.unwrap_or(("?", "?")).0,
subregion_short_names.join("."))`. -/
def address_location_to_string (address_location : AddressLocation) : String :=
  let subregion_short_names : List String :=
    address_location.subregions.map (fun s => s.1)
  (address_location.segment.getD ("?", "?")).1
    ++ (address_location.region.getD ("?", "?")).1
    ++ "."
    ++ String.intercalate "." subregion_short_names

/-! ### Trace-line rewriting

`rewrite_lines_of_file` applies the regex
`^([A-Z]{3})\s*([a-f0-9]{16})\s*(.*)$` to each line and either reprints the
line unchanged or emits a reformatted line.  We model the per-line step on
`List Char`.  Since the character classes `\s` and `[a-f0-9]` are disjoint,
the greedy `\s*` runs never backtrack, so the regex match on a newline-free
line is equivalent to the explicit scanner below. -/

/-- The regex character class `[A-Z]` (code points 65–90). -/
def isUpperAZ (c : Char) : Bool := decide (65 ≤ c.toNat ∧ c.toNat ≤ 90)

/-- The regex character class `[a-f0-9]` (code points 97–102 and 48–57). -/
def isHexLowerDigit (c : Char) : Bool :=
  decide ((97 ≤ c.toNat ∧ c.toNat ≤ 102) ∨ (48 ≤ c.toNat ∧ c.toNat ≤ 57))

/-- The regex character class `\s` (Unicode `White_Space`, the default for
the Rust `regex` crate). -/
def isSpaceRe (c : Char) : Bool :=
  decide ((9 ≤ c.toNat ∧ c.toNat ≤ 13) ∨ c.toNat = 32 ∨ c.toNat = 0x85 ∨
    c.toNat = 0xA0 ∨ c.toNat = 0x1680 ∨ (0x2000 ≤ c.toNat ∧ c.toNat ≤ 0x200A) ∨
    c.toNat = 0x2028 ∨ c.toNat = 0x2029 ∨ c.toNat = 0x202F ∨
    c.toNat = 0x205F ∨ c.toNat = 0x3000)

/-- Matching `^([A-Z]{3})\s*([a-f0-9]{16})\s*(.*)$` against a newline-free
line, returning the three capture groups. -/
def matchTraceLine (cs : List Char) : Option (List Char × List Char × List Char) :=
  match cs with
  | c1 :: c2 :: c3 :: rest =>
    if isUpperAZ c1 && isUpperAZ c2 && isUpperAZ c3 then
      let afterWs := rest.dropWhile isSpaceRe
      let hexPart := afterWs.take 16
      if hexPart.length == 16 && hexPart.all isHexLowerDigit then
        some ([c1, c2, c3], hexPart, (afterWs.drop 16).dropWhile isSpaceRe)
      else none
    else none
  | _ => none

/-- Value of a single digit as accepted by Rust `from_str_radix(_, 16)`:
`0`–`9`, `a`–`f`, or `A`–`F`. -/
def hexDigitVal (c : Char) : Option Nat :=
  if 48 ≤ c.toNat ∧ c.toNat ≤ 57 then some (c.toNat - 48)
  else if 97 ≤ c.toNat ∧ c.toNat ≤ 102 then some (c.toNat - 97 + 10)
  else if 65 ≤ c.toNat ∧ c.toNat ≤ 70 then some (c.toNat - 65 + 10)
  else none

/-- Accumulating loop of `u64::from_str_radix(s, 16)`: one checked
multiply-add per digit, failing on a non-digit or on 64-bit overflow. -/
def u64_from_str_radix_16_go : List Char → Nat → Option Nat
  | [], acc => some acc
  | c :: cs, acc =>
    match hexDigitVal c with
    | none => none
    | some d =>
      if acc * 16 + d < 2 ^ 64 then u64_from_str_radix_16_go cs (acc * 16 + d)
      else none

/-- Embedding of `u64::from_str_radix(s, 16)` (for inputs without a sign
character, which is all the trace rewriter ever passes). -/
def u64_from_str_radix_16 (s : List Char) : Option Nat :=
  if s.isEmpty then none else u64_from_str_radix_16_go s 0

/-- Digit-emitting loop for `{:x}`: peels base-16 digits least significant
first, prepending each to the accumulator.  The fuel argument only bounds
the recursion; 64 generations suffice for any `u64`. -/
def toHexDigitsCore : Nat → Nat → List Char → List Char
  | 0, _, ds => ds
  | fuel + 1, n, ds =>
    let d : Char :=
      if n % 16 < 10 then Char.ofNat (48 + n % 16) else Char.ofNat (87 + n % 16)
    if n < 16 then d :: ds else toHexDigitsCore fuel (n / 16) (d :: ds)

/-- Minimal lowercase hexadecimal digits of a number, most significant
first (`{:x}`). -/
def toHexDigits (n : Nat) : List Char :=
  toHexDigitsCore 64 n []

/-- Rust `{:#08x}`: `0x` prefixed, zero-filled to a total width of 8
characters counting the prefix (so at least 6 hex digits). -/
def rustFormatHex8 (v : Nat) : List Char :=
  let ds := toHexDigits v
  '0' :: 'x' :: (List.replicate (6 - ds.length) '0' ++ ds)

/-- Rust `{:<12}`: left-aligned, space-padded to width 12. -/
def rustPadLeft12 (s : List Char) : List Char :=
  s ++ List.replicate (12 - s.length) ' '

/-- Embedding of the per-line body of `rewrite_lines_of_file`: `none`
models the `unwrap` panic on the hex parse (shown unreachable below);
`some out` is the line printed for this input line. -/
def rewrite_line (line : List Char) : Option (List Char) :=
  match matchTraceLine line with
  | none => some line
  | some (pre, hexs, suf) =>
    match u64_from_str_radix_16 hexs with
    | none => none
    | some int_val =>
      let lower_32_bits_val : Nat := (int_val &&& 0x0000ffffffff) % 2 ^ 32
      let location := get_segment_region_subregion lower_32_bits_val
      some (pre ++ [' ']
        ++ rustPadLeft12 ((address_location_to_string location).data.map Char.toUpper)
        ++ [' '] ++ rustFormatHex8 lower_32_bits_val
        ++ [' '] ++ suf)

/-! ### Coverage of the range tables

`coversB l lo hi` checks that `l` is a gap-free, overlap-free chain of
inclusive ranges covering exactly `[lo, hi]`: the first range starts at
`lo`, each range is nonempty, consecutive ranges are adjacent, and the last
range ends at `hi`. -/

/-- `l` partitions the interval `[lo, hi]` into adjacent inclusive ranges. -/
def coversB : List Region → Nat → Nat → Bool
  | [], _, _ => false
  | r :: rest, lo, hi =>
    (r.start == lo) && (r.start ≤ r.stop) &&
      (match rest with
       | [] => r.stop == hi
       | _ :: _ => coversB rest (r.stop + 1) hi)

theorem coversB_le {l : List Region} {lo hi : Nat} (h : coversB l lo hi = true) :
    lo ≤ hi := by
  induction l generalizing lo with
  | nil => simp [coversB] at h
  | cons r rest ih =>
    simp only [coversB, Bool.and_eq_true, beq_iff_eq, decide_eq_true_eq] at h
    obtain ⟨⟨hlo, hwf⟩, htail⟩ := h
    cases rest with
    | nil =>
      simp only [beq_iff_eq] at htail
      omega
    | cons s rest' =>
      have := ih htail
      omega

theorem coversB_start_le {l : List Region} {lo hi : Nat}
    (h : coversB l lo hi = true) : ∀ t ∈ l, lo ≤ t.start := by
  induction l generalizing lo with
  | nil => simp
  | cons r rest ih =>
    simp only [coversB, Bool.and_eq_true, beq_iff_eq, decide_eq_true_eq] at h
    obtain ⟨⟨hlo, hwf⟩, htail⟩ := h
    intro t ht
    rcases List.mem_cons.mp ht with rfl | ht'
    · omega
    · cases rest with
      | nil => simp at ht'
      | cons s rest' =>
        have := ih htail t ht'
        omega

theorem coversB_stop_le {l : List Region} {lo hi : Nat}
    (h : coversB l lo hi = true) : ∀ t ∈ l, t.stop ≤ hi := by
  induction l generalizing lo with
  | nil => simp
  | cons r rest ih =>
    simp only [coversB, Bool.and_eq_true, beq_iff_eq, decide_eq_true_eq] at h
    obtain ⟨⟨hlo, hwf⟩, htail⟩ := h
    intro t ht
    rcases List.mem_cons.mp ht with rfl | ht'
    · cases rest with
      | nil => simp only [beq_iff_eq] at htail; omega
      | cons s rest' => have := coversB_le htail; omega
    · cases rest with
      | nil => simp at ht'
      | cons s rest' => exact ih htail t ht'

theorem countP_containsAddr_zero_of_lt {l : List Region} {a : Nat}
    (h : ∀ r ∈ l, a < r.start) :
    l.countP (fun r => containsAddr r a) = 0 := by
  rw [List.countP_eq_zero]
  intro r hr
  have := h r hr
  simp only [containsAddr, decide_eq_true_eq]
  omega

theorem countP_containsAddr_zero_of_stop_lt {l : List Region} {a : Nat}
    (h : ∀ r ∈ l, r.stop < a) :
    l.countP (fun r => containsAddr r a) = 0 := by
  rw [List.countP_eq_zero]
  intro r hr
  have := h r hr
  simp only [containsAddr, decide_eq_true_eq]
  omega

/-- An address inside the interval of a partition chain is matched by
exactly one of its ranges. -/
theorem coversB_countP_eq_one {l : List Region} {lo hi a : Nat}
    (h : coversB l lo hi = true) (hlo : lo ≤ a) (hhi : a ≤ hi) :
    l.countP (fun r => containsAddr r a) = 1 := by
  induction l generalizing lo with
  | nil => simp [coversB] at h
  | cons r rest ih =>
    simp only [coversB, Bool.and_eq_true, beq_iff_eq, decide_eq_true_eq] at h
    obtain ⟨⟨hstart, hwf⟩, htail⟩ := h
    cases rest with
    | nil =>
      simp only [beq_iff_eq] at htail
      have hc : containsAddr r a = true := by
        simp only [containsAddr, decide_eq_true_eq]; omega
      simp [List.countP_cons, hc]
    | cons s rest' =>
      rcases le_or_lt a r.stop with hble | hgt
      · have hc : containsAddr r a = true := by
          simp only [containsAddr, decide_eq_true_eq]; omega
        have hrest : (s :: rest').countP (fun t => containsAddr t a) = 0 := by
          apply countP_containsAddr_zero_of_lt
          intro t ht
          have := coversB_start_le htail t ht
          omega
        rw [List.countP_cons, hrest, hc]
        simp
      · have hc : containsAddr r a = false := by
          simp only [containsAddr, decide_eq_false_iff_not, not_and, not_le]
          omega
        rw [List.countP_cons, hc, ih htail (by omega)]
        simp

/-! ### The masked address -/

/-- The cache-control mask `& 0x1FFF_FFFF` is reduction modulo `2 ^ 29`. -/
theorem mask29_eq_mod (a : Nat) : a &&& 0x1FFFFFFF = a % 2 ^ 29 := by
  have h : (0x1FFFFFFF : Nat) = 2 ^ 29 - 1 := by norm_num
  rw [h, Nat.and_pow_two_sub_one_eq_mod]

theorem mask29_of_le {a : Nat} (h : a ≤ 0x1FFFFFFF) :
    a &&& 0x1FFFFFFF = a := by
  rw [mask29_eq_mod]
  exact Nat.mod_eq_of_lt (by omega)

theorem mask29_le (a : Nat) : a &&& 0x1FFFFFFF ≤ 0x1FFFFFFF := by
  rw [mask29_eq_mod]
  have := Nat.mod_lt a (show 0 < 2 ^ 29 by norm_num)
  omega

/-! ### Unfolding equations for the classifier fields -/

theorem gsrs_physical (a : Nat) :
    (get_segment_region_subregion a).physical_address = a &&& 0x1FFFFFFF := rfl

theorem gsrs_segment (a : Nat) :
    (get_segment_region_subregion a).segment =
      (SEGMENTS.find? (fun seg => containsAddr seg a)).map
        (fun seg => (seg.short, seg.long)) := rfl

theorem gsrs_region (a : Nat) :
    (get_segment_region_subregion a).region =
      (REGIONS.find? (fun reg => containsAddr reg (a &&& 0x1FFFFFFF))).map
        (fun reg => (reg.short, reg.long)) := rfl

theorem gsrs_subregions (a : Nat) :
    (get_segment_region_subregion a).subregions =
      (SUBREGIONS.filter (fun reg => containsAddr reg (a &&& 0x1FFFFFFF))).map
        (fun reg => (reg.short, reg.long)) := rfl

/-- Each of the three static tables is a gap-free partition chain, except
that `REGIONS` splits into two chains separated by the uncovered gap
`[0x04A00000, 0x04FFFFFF]`. -/
theorem coversB_SEGMENTS : coversB SEGMENTS 0 0xFFFFFFFF = true := by decide

theorem coversB_SUBREGIONS : coversB SUBREGIONS 0 0xFFFFFFFF = true := by
  decide

theorem coversB_REGIONS_lowChain :
    coversB (REGIONS.take 2) 0 0x049FFFFF = true := by decide

theorem coversB_REGIONS_highChain :
    coversB (REGIONS.drop 2) 0x05000000 0xFFFFFFFF = true := by decide

/-- Every address gets exactly one subregion: shared by several claims. -/
theorem subregions_length_eq_one (a : Nat) :
    (get_segment_region_subregion a).subregions.length = 1 := by
  rw [gsrs_subregions, List.length_map, ← List.countP_eq_length_filter]
  exact coversB_countP_eq_one coversB_SUBREGIONS (Nat.zero_le _)
    (by have := mask29_le a; omega)

/-! ### The claims -/

/-- C3: for every 32-bit address, resolution against the segment table
(done by `get_segment_region_subregion` on the unmasked address) yields a
present `segment` field, and exactly one segment range contains the
address (so the match is unique). -/
theorem C3_segment_exactly_one (a : Nat) (h : a < 2 ^ 32) :
    (get_segment_region_subregion a).segment.isSome = true ∧
    SEGMENTS.countP (fun r => containsAddr r a) = 1 := by
  have hcount := coversB_countP_eq_one coversB_SEGMENTS (Nat.zero_le a)
    (show a ≤ 0xFFFFFFFF by omega)
  refine ⟨?_, hcount⟩
  rw [gsrs_segment, Option.isSome_map', List.find?_isSome]
  have := List.countP_pos_iff.mp (show 0 < SEGMENTS.countP
    (fun r => containsAddr r a) by omega)
  simpa using this

theorem C3_segment_witness :
    (get_segment_region_subregion 0xDEADBEEF).segment.isSome = true ∧
    SEGMENTS.countP (fun r => containsAddr r 0xDEADBEEF) = 1 :=
  C3_segment_exactly_one 0xDEADBEEF (by norm_num)

/-- C1 fails on the code: the region table has a gap.  The masked address
`0x04A00000` lies between the end of the RCP range (`0x049FFFFF`) and the
start of the PI 1/2 range (`0x05000000`), so it matches no region at all
and the `region` field is absent. -/
theorem C1_region_counterexample :
    (get_segment_region_subregion 0x04A00000).region = none ∧
    REGIONS.countP (fun r => containsAddr r 0x04A00000) = 0 := by decide

/-- C1 (amended): region matching is unique but not exhaustive.  For every
masked address in `[0x00000000, 0x1FFFFFFF]` outside the uncovered gap
`[0x04A00000, 0x04FFFFFF]`, resolution against the region table yields
exactly one matching range and the `region` field is present. -/
theorem C1_region_amended (a : Nat) (h : a ≤ 0x1FFFFFFF)
    (hgap : a < 0x04A00000 ∨ 0x04FFFFFF < a) :
    (get_segment_region_subregion a).region.isSome = true ∧
    REGIONS.countP (fun r => containsAddr r a) = 1 := by
  have hsplit : REGIONS = REGIONS.take 2 ++ REGIONS.drop 2 :=
    (List.take_append_drop 2 REGIONS).symm
  have hcount : REGIONS.countP (fun r => containsAddr r a) = 1 := by
    rw [hsplit, List.countP_append]
    rcases hgap with hlow | hhigh
    · have h1 := coversB_countP_eq_one coversB_REGIONS_lowChain
        (Nat.zero_le a) (by omega)
      have h2 : (REGIONS.drop 2).countP (fun r => containsAddr r a) = 0 := by
        apply countP_containsAddr_zero_of_lt
        intro t ht
        have := coversB_start_le coversB_REGIONS_highChain t ht
        omega
      omega
    · have h1 : (REGIONS.take 2).countP (fun r => containsAddr r a) = 0 := by
        apply countP_containsAddr_zero_of_stop_lt
        intro t ht
        have := coversB_stop_le coversB_REGIONS_lowChain t ht
        omega
      have h2 : (REGIONS.drop 2).countP (fun r => containsAddr r a) = 1 :=
        coversB_countP_eq_one coversB_REGIONS_highChain
          (show 0x05000000 ≤ a by omega) (show a ≤ 0xFFFFFFFF by omega)
      omega
  refine ⟨?_, hcount⟩
  rw [gsrs_region, mask29_of_le h, Option.isSome_map', List.find?_isSome]
  have := List.countP_pos_iff.mp (show 0 < REGIONS.countP
    (fun r => containsAddr r a) by omega)
  simpa using this

theorem C1_region_witness :
    (get_segment_region_subregion 0).region.isSome = true ∧
    REGIONS.countP (fun r => containsAddr r 0) = 1 :=
  C1_region_amended 0 (by norm_num) (Or.inl (by norm_num))

/-- C9: for every 32-bit address the subregions list has exactly one
element: the subregion table is gap-free and overlap-free over the masked
domain, so each masked address is contained in one and only one range. -/
theorem C9_subregion_exactly_one (a : Nat) (h : a < 2 ^ 32) :
    (get_segment_region_subregion a).subregions.length = 1 ∧
    SUBREGIONS.countP (fun r => containsAddr r (a &&& 0x1FFFFFFF)) = 1 := by
  refine ⟨subregions_length_eq_one a, ?_⟩
  exact coversB_countP_eq_one coversB_SUBREGIONS (Nat.zero_le _)
    (by have := mask29_le a; omega)

theorem C9_subregion_witness :
    (get_segment_region_subregion 0x12345678).subregions.length = 1 ∧
    SUBREGIONS.countP
      (fun r => containsAddr r (0x12345678 &&& 0x1FFFFFFF)) = 1 :=
  C9_subregion_exactly_one 0x12345678 (by norm_num)

/-- C4 fails on the code: no 32-bit address ever yields more than one
subregion, because the production subregion table has no overlapping
ranges over the masked domain (the broad RCP "Unmapped/fatal" range
`0x04900000-0x04FFFFFF` is adjacent to, not a superset of, the specific
device ranges). -/
theorem C4_subregion_counterexample :
    ¬ ∃ a : Nat, a < 2 ^ 32 ∧
      2 ≤ (get_segment_region_subregion a).subregions.length := by
  rintro ⟨a, -, hlen⟩
  rw [subregions_length_eq_one a] at hlen
  omega

/-- C4 (amended): `get_segment_region_subregion` does collect every
matching subregion in table definition order (a filter over the whole
table, not a first-match search), but the production table's ranges are
pairwise disjoint on the masked domain, so the collected list never has
more than one element. -/
theorem C4_subregion_collection (a : Nat) (h : a < 2 ^ 32) :
    (get_segment_region_subregion a).subregions =
      (SUBREGIONS.filter (fun reg => containsAddr reg (a &&& 0x1FFFFFFF))).map
        (fun reg => (reg.short, reg.long)) ∧
    ¬ 2 ≤ (get_segment_region_subregion a).subregions.length := by
  refine ⟨gsrs_subregions a, ?_⟩
  rw [subregions_length_eq_one a]
  omega

theorem C4_subregion_witness :
    (get_segment_region_subregion 0x04040100).subregions =
      (SUBREGIONS.filter
        (fun reg => containsAddr reg (0x04040100 &&& 0x1FFFFFFF))).map
        (fun reg => (reg.short, reg.long)) ∧
    ¬ 2 ≤ (get_segment_region_subregion 0x04040100).subregions.length :=
  C4_subregion_collection 0x04040100 (by norm_num)

/-- C5: address `0x80000000` resolves to segment KSEG0 ("0"), masked
address `0x00000000`, region RDRAM ("R") and the single subregion RDRAM
memory-space ("RDRM"); the uppercased short string is `"0R.RDRM"`. -/
theorem C5_address_80000000 :
    get_segment_region_subregion 0x80000000 =
      { virtual_address := 0x80000000, physical_address := 0x00000000,
        segment := some ("0", "KSEG0"), region := some ("R", "RDRAM"),
        subregions := [("RDRM", "RDRAM memory-space")] } ∧
    address_location_to_string (get_segment_region_subregion 0x80000000)
      = "0R.RDRM" ∧
    (address_location_to_string
        (get_segment_region_subregion 0x80000000)).data.map Char.toUpper
      = "0R.RDRM".data := by decide

/-- C6: the physical address is the input with bits 29 and above cleared
(for a 32-bit input, exactly bits 29-31) and all lower bits kept, and
masking is idempotent: re-classifying an already-masked address returns
the same physical address. -/
theorem C6_mask_bits_idempotent (a : Nat) :
    (∀ i : Nat, ((get_segment_region_subregion a).physical_address).testBit i
        = (a.testBit i && decide (i < 29))) ∧
    (get_segment_region_subregion
        ((get_segment_region_subregion a).physical_address)).physical_address
      = (get_segment_region_subregion a).physical_address := by
  constructor
  · intro i
    rw [gsrs_physical, show (0x1FFFFFFF : Nat) = 2 ^ 29 - 1 by norm_num,
      Nat.testBit_and, Nat.testBit_two_pow_sub_one]
  · rw [gsrs_physical, gsrs_physical, mask29_eq_mod, mask29_eq_mod,
      Nat.mod_mod_of_dvd a dvd_rfl]

/-- C7: the short string is always the segment short code, the region
short code, a dot, and the dot-joined subregion short codes, with the
placeholder `?` substituted for an absent segment or region; with zero
subregions the trailing dot still appears with nothing after it. -/
theorem C7_formatter_shape (loc : AddressLocation) :
    address_location_to_string loc =
      (match loc.segment with | none => "?" | some s => s.1) ++
        (match loc.region with | none => "?" | some r => r.1) ++ "." ++
        String.intercalate "." (loc.subregions.map (fun s => s.1)) ∧
    (loc.subregions = [] →
      address_location_to_string loc =
        (match loc.segment with | none => "?" | some s => s.1) ++
          (match loc.region with | none => "?" | some r => r.1) ++ ".") := by
  obtain ⟨va, pa, seg, reg, subs⟩ := loc
  constructor
  · cases seg <;> cases reg <;> rfl
  · intro hempty
    simp only at hempty
    subst hempty
    cases seg <;> cases reg <;>
      simp [address_location_to_string, String.intercalate,
        String.append_empty]

theorem C7_formatter_witness :
    address_location_to_string
      { virtual_address := 0, physical_address := 0, segment := none,
        region := none, subregions := [] } = "??." :=
  (C7_formatter_shape
    { virtual_address := 0, physical_address := 0, segment := none,
      region := none, subregions := [] }).2 rfl

/-! ### The trace-line pattern, declaratively -/

/-- Declarative reading of the trace-line pattern
`^([A-Z]{3})\s*([a-f0-9]{16})\s*(.*)$` on a newline-free line: three
uppercase letters, a whitespace run, sixteen lowercase hex digits, a
whitespace run, then anything. -/
def isTraceLine (cs : List Char) : Prop :=
  ∃ g1 w1 g2 w2 g3 : List Char,
    cs = g1 ++ w1 ++ g2 ++ w2 ++ g3 ∧
    g1.length = 3 ∧ g1.all isUpperAZ = true ∧
    w1.all isSpaceRe = true ∧
    g2.length = 16 ∧ g2.all isHexLowerDigit = true ∧
    w2.all isSpaceRe = true

theorem isSpaceRe_eq_false_of_hex {c : Char}
    (h : isHexLowerDigit c = true) : isSpaceRe c = false := by
  simp only [isHexLowerDigit, decide_eq_true_eq] at h
  simp only [isSpaceRe, decide_eq_false_iff_not]
  omega

theorem dropWhile_append_of_all {α : Type} (p : α → Bool) :
    ∀ (l₁ l₂ : List α), l₁.all p = true →
      (l₁ ++ l₂).dropWhile p = l₂.dropWhile p := by
  intro l₁
  induction l₁ with
  | nil => simp
  | cons x xs ih =>
    intro l₂ h
    simp only [List.all_cons, Bool.and_eq_true] at h
    simp [List.dropWhile_cons_of_pos h.1, ih _ h.2]

/-- Inversion of the scanner: a successful match certifies the pattern and
pins down the hex capture group. -/
theorem matchTraceLine_some_spec {cs : List Char}
    {t : List Char × List Char × List Char}
    (hm : matchTraceLine cs = some t) :
    isTraceLine cs ∧ t.2.1.length = 16 ∧ t.2.1.all isHexLowerDigit = true := by
  cases cs with
  | nil => simp [matchTraceLine] at hm
  | cons c1 cs1 =>
  cases cs1 with
  | nil => simp [matchTraceLine] at hm
  | cons c2 cs2 =>
  cases cs2 with
  | nil => simp [matchTraceLine] at hm
  | cons c3 rest =>
  simp only [matchTraceLine] at hm
  split at hm
  case isFalse => exact absurd hm (by simp)
  case isTrue h1 =>
  split at hm
  case isFalse => exact absurd hm (by simp)
  case isTrue h2 =>
  rw [Option.some.injEq] at hm
  subst hm
  simp only [Bool.and_eq_true, beq_iff_eq] at h1 h2
  refine ⟨⟨[c1, c2, c3], rest.takeWhile isSpaceRe,
    (rest.dropWhile isSpaceRe).take 16, [],
    (rest.dropWhile isSpaceRe).drop 16, ?_, rfl, ?_, ?_, h2.1, h2.2, rfl⟩,
    h2.1, h2.2⟩
  · simp [List.take_append_drop, List.takeWhile_append_dropWhile]
  · simp [List.all_cons, h1.1.1, h1.1.2, h1.2]
  · exact List.all_takeWhile

/-- Completeness of the scanner: any line admitting the pattern
decomposition is matched.  Greedy `\s*` runs cannot overshoot because hex
digits are not whitespace. -/
theorem matchTraceLine_isSome_of_isTraceLine {cs : List Char}
    (h : isTraceLine cs) : (matchTraceLine cs).isSome = true := by
  obtain ⟨g1, w1, g2, w2, g3, hcs, hg1len, hg1, hw1, hg2len, hg2, hw2⟩ := h
  obtain ⟨a, b, c, rfl⟩ := List.length_eq_three.mp hg1len
  simp only [List.all_cons, List.all_nil, Bool.and_eq_true] at hg1
  obtain ⟨ha, hb, hc, -⟩ := hg1
  cases g2 with
  | nil => simp at hg2len
  | cons d g2' =>
  simp only [List.all_cons, Bool.and_eq_true] at hg2
  have e : ([a, b, c] : List Char) ++ w1 ++ (d :: g2') ++ w2 ++ g3
      = a :: b :: c :: (w1 ++ ((d :: g2') ++ (w2 ++ g3))) := by simp
  rw [hcs, e]
  simp only [matchTraceLine]
  rw [if_pos (by simp [ha, hb, hc])]
  have hdrop2 : List.dropWhile isSpaceRe (w1 ++ ((d :: g2') ++ (w2 ++ g3)))
      = (d :: g2') ++ (w2 ++ g3) := by
    rw [dropWhile_append_of_all isSpaceRe w1 _ hw1]
    exact List.dropWhile_cons_of_neg (by
      simp [isSpaceRe_eq_false_of_hex hg2.1])
  rw [hdrop2, List.take_left' hg2len]
  rw [if_pos (by simp [hg2len, hg2.1, hg2.2])]
  rfl

theorem matchTraceLine_isSome_iff (cs : List Char) :
    (matchTraceLine cs).isSome = true ↔ isTraceLine cs := by
  constructor
  · intro h
    obtain ⟨t, ht⟩ := Option.isSome_iff_exists.mp h
    exact (matchTraceLine_some_spec ht).1
  · exact matchTraceLine_isSome_of_isTraceLine

/-! ### Totality of the hex parse on matched groups -/

theorem hexDigitVal_isSome_of_hex {c : Char}
    (h : isHexLowerDigit c = true) : (hexDigitVal c).isSome = true := by
  simp only [isHexLowerDigit, decide_eq_true_eq] at h
  unfold hexDigitVal
  split_ifs <;> simp_all <;> omega

theorem hexDigitVal_le_15 {c : Char} {d : Nat}
    (h : hexDigitVal c = some d) : d ≤ 15 := by
  unfold hexDigitVal at h
  split_ifs at h <;> simp_all <;> omega

/-- The checked multiply-add loop never overflows while the accumulated
value stays within `2 ^ 64` headroom for the remaining digits. -/
theorem u64_go_isSome :
    ∀ (cs : List Char) (acc : Nat),
      (∀ c ∈ cs, (hexDigitVal c).isSome = true) →
      acc * 16 ^ cs.length + 16 ^ cs.length ≤ 2 ^ 64 →
      (u64_from_str_radix_16_go cs acc).isSome = true := by
  intro cs
  induction cs with
  | nil =>
    intro acc _ _
    simp [u64_from_str_radix_16_go]
  | cons c cs' ih =>
    intro acc hdig hb
    obtain ⟨d, hd⟩ :=
      Option.isSome_iff_exists.mp (hdig c (List.mem_cons_self c cs'))
    have hd15 : d ≤ 15 := hexDigitVal_le_15 hd
    have hX : 1 ≤ 16 ^ cs'.length := Nat.one_le_pow _ _ (by omega)
    have hb' : acc * (16 * 16 ^ cs'.length) + 16 * 16 ^ cs'.length ≤ 2 ^ 64 := by
      have hpow : (16 : Nat) ^ (c :: cs').length = 16 * 16 ^ cs'.length := by
        simp [List.length_cons, pow_succ]
        ring
      rw [hpow] at hb
      exact hb
    have hstep : (acc * 16 + d) * 16 ^ cs'.length + 16 ^ cs'.length ≤ 2 ^ 64 := by
      have e1 : (acc * 16 + d) * 16 ^ cs'.length + 16 ^ cs'.length
          = acc * (16 * 16 ^ cs'.length) + (d * 16 ^ cs'.length + 16 ^ cs'.length) := by
        ring
      have e2 : d * 16 ^ cs'.length ≤ 15 * 16 ^ cs'.length :=
        Nat.mul_le_mul_right _ hd15
      have e3 : acc * (16 * 16 ^ cs'.length) +
          (15 * 16 ^ cs'.length + 16 ^ cs'.length)
          = acc * (16 * 16 ^ cs'.length) + 16 * 16 ^ cs'.length := by ring
      omega
    have hover : acc * 16 + d < 2 ^ 64 := by
      have h1 : acc * 16 + d ≤ (acc * 16 + d) * 16 ^ cs'.length :=
        Nat.le_mul_of_pos_right _ (by omega)
      omega
    simp only [u64_from_str_radix_16_go, hd]
    rw [if_pos hover]
    refine ih (acc * 16 + d) (fun x hx => hdig x (List.mem_cons_of_mem c hx))
      hstep

/-- C10: whenever a line matches the trace pattern, parsing the captured
16-character lowercase-hex group as a base-16 `u64` succeeds, so the
`unwrap` on the parse result can never panic. -/
theorem C10_hex_parse_total (cs pre hexs suf : List Char)
    (hm : matchTraceLine cs = some (pre, hexs, suf)) :
    (u64_from_str_radix_16 hexs).isSome = true := by
  obtain ⟨-, hlen, hall⟩ := matchTraceLine_some_spec hm
  simp only at hlen hall
  have hne : hexs.isEmpty = false := by
    cases hexs with
    | nil => simp at hlen
    | cons x xs => rfl
  unfold u64_from_str_radix_16
  rw [hne]
  simp only [Bool.false_eq_true, if_false]
  refine u64_go_isSome hexs 0 ?_ ?_
  · intro x hx
    exact hexDigitVal_isSome_of_hex (List.all_eq_true.mp hall x hx)
  · rw [hlen]
    norm_num

theorem C10_hex_parse_witness :
    (u64_from_str_radix_16 "0000000080000000".data).isSome = true :=
  C10_hex_parse_total "CPU 0000000080000000 extra text".data
    "CPU".data "0000000080000000".data "extra text".data (by decide)

/-- C8: a newline-free line that does not admit the trace pattern
decomposition is emitted unchanged, character for character. -/
theorem C8_nonmatching_passthrough (cs : List Char)
    (hnl : ('\n' : Char) ∉ cs) (h : ¬ isTraceLine cs) :
    rewrite_line cs = some cs := by
  cases hm : matchTraceLine cs with
  | none => simp [rewrite_line, hm]
  | some t => exact absurd (matchTraceLine_some_spec hm).1 h

theorem C8_nonmatching_witness :
    rewrite_line "hello world".data = some "hello world".data :=
  C8_nonmatching_passthrough "hello world".data (by decide)
    (fun hT =>
      absurd ((matchTraceLine_isSome_iff "hello world".data).mpr hT)
        (by decide))

/-- C2 fails on the code: the rewritten line is not the one the claim
states.  The code prints the lower 32 bits of the parsed value
(`0x80000000`, not the masked address `0x00000000`), and the short-string
column padding plus the single format-string separator put 6 spaces (not
7) between the short string and the hex field. -/
theorem C2_rewrite_counterexample :
    rewrite_line "CPU 0000000080000000 extra text".data ≠
      some "CPU 0R.RDRM       0x00000000 extra text".data := by decide

/-- C2 (amended): the trace line `"CPU 0000000080000000 extra text"`
rewrites to `"CPU 0R.RDRM      0x80000000 extra text"`: prefix, space,
short string left-padded to width 12, space, `{:#08x}` rendering of the
lower 32 bits (here 8 hex digits because the value needs 8), space,
trailing text. -/
theorem C2_rewrite_amended :
    rewrite_line "CPU 0000000080000000 extra text".data =
      some "CPU 0R.RDRM      0x80000000 extra text".data := by decide

end N64
